import Mathlib

/-!
# Verification of the data-algorithms-with-pyspark examples

A shallow embedding, in Lean 4, of the pure computational kernels of the
repository's PySpark examples, together with proofs about them.

Modelling conventions:
* Python `str` values are modelled as `String` or `List Char` (Python and
  Lean both compare characters by Unicode code point).
* Python `int` is modelled as `Int` (arbitrary precision in both).
* Python exceptions are modelled with `Except PyErr`.
* An RDD together with its partitioning is modelled as a
  `List (List α)`: the list of its partitions, each a list of records.
  `flatMap f` over such an RDD emits `(parts.join).flatMap f`;
  `mapPartitions g` emits `parts.flatMap g`.
* `reduceByKey (+)` is modelled by its value semantics: the total it
  produces for a key is the sum of all values emitted with that key
  (with an associative and commutative combiner this value does not
  depend on the engine's reduction order; the reduction order itself is
  modelled explicitly where a claim is about it, via `RTree`).
-/

/-- Python runtime errors raised by the embedded code. -/
inductive PyErr where
  | valueError
  | indexError
deriving DecidableEq, Repr

/- ---------------------------------------------------------------------
Chapter 10, `in_mapper_combining.py`: character frequency, three ways.
--------------------------------------------------------------------- -/

/-- Helper for `pySplitWs`: the accumulator holds the current word,
reversed. -/
def splitWsAux : List Char → List Char → List (List Char)
  | [], acc => if acc = [] then [] else [acc.reverse]
  | c :: rest, acc =>
    if c.isWhitespace then
      (if acc = [] then [] else [acc.reverse]) ++ splitWsAux rest []
    else
      splitWsAux rest (c :: acc)

/-- Python `str.split()` with no separator: split on runs of whitespace,
producing no empty words. -/
def pySplitWs (cs : List Char) : List (List Char) :=
  splitWsAux cs []

/-- The stream of characters visited by
`for word in record.lower().split(): for c in word: ...`. -/
def charStream (record : List Char) : List Char :=
  (pySplitWs (record.map Char.toLower)).join

/-- `basic_mapper`: emit `(c, 1)` for every character of every word of the
lowercased record. -/
def basic_mapper (record : List Char) : List (Char × Nat) :=
  (charStream record).map (fun c => (c, 1))

/-- One step of `freq[c] += 1` on a `defaultdict(int)`, modelled as an
insertion-ordered association list. -/
def dictIncr : List (Char × Nat) → Char → List (Char × Nat)
  | [], c => [(c, 1)]
  | (k, v) :: rest, c =>
    if k = c then (k, v + 1) :: rest else (k, v) :: dictIncr rest c

/-- The dict built by iterating `freq[c] += 1` over a character stream;
`list(freq.items())` is the association list itself. -/
def charDict (cs : List Char) : List (Char × Nat) :=
  cs.foldl dictIncr []

/-- `per_record_combiner`: aggregate character frequencies within a single
record into a local dict, then emit its items. -/
def per_record_combiner (record : List Char) : List (Char × Nat) :=
  charDict (charStream record)

/-- `per_partition_combiner`: aggregate character frequencies across an
entire partition into one dict, then emit its items. -/
def per_partition_combiner (partition : List (List Char)) : List (Char × Nat) :=
  charDict ((partition.map charStream).join)

/-- The value `reduceByKey (lambda a, b: a + b)` produces for key `c`:
the sum of all counts emitted with key `c`. -/
def keyTotal (pairs : List (Char × Nat)) (c : Char) : Nat :=
  ((pairs.filter (fun p => p.1 = c)).map (fun p => p.2)).sum

/-- `char_freq_basic`: `rdd.flatMap(basic_mapper).reduceByKey(+)`, as the
key-to-total mapping it computes. -/
def char_freq_basic (parts : List (List (List Char))) (c : Char) : Nat :=
  keyTotal (parts.join.flatMap basic_mapper) c

/-- `char_freq_per_record`: `rdd.flatMap(per_record_combiner).reduceByKey(+)`. -/
def char_freq_per_record (parts : List (List (List Char))) (c : Char) : Nat :=
  keyTotal (parts.join.flatMap per_record_combiner) c

/-- `char_freq_per_partition`:
`rdd.mapPartitions(per_partition_combiner).reduceByKey(+)`. -/
def char_freq_per_partition (parts : List (List (List Char))) (c : Char) : Nat :=
  keyTotal (parts.flatMap per_partition_combiner) c

/- ---------------------------------------------------------------------
Chapter 1, `average_by_key_reducebykey.py`.
--------------------------------------------------------------------- -/

/-- A record representing a person with name, city, and score. -/
structure PersonRecord where
  name : String
  city : String
  score : Int
deriving DecidableEq, Repr

/-- Convert a `PersonRecord` to `(name, (score, 1))` for averaging. -/
def to_sum_count (record : PersonRecord) : String × (Int × Int) :=
  (record.name, (record.score, 1))

/-- Add two `(sum, count)` pairs together. -/
def add_pairs (a : Int × Int) (b : Int × Int) : Int × Int :=
  (a.1 + b.1, a.2 + b.2)

/-- Compute average from a `(sum, count)` tuple.  Python divides with `/`;
the exact quotient is modelled in `ℚ`. -/
def compute_average (sum_count : Int × Int) : ℚ :=
  (sum_count.1 : ℚ) / (sum_count.2 : ℚ)

/-- A reduction tree: one way the engine may group and order the
applications of a combining function over the values of one key. -/
inductive RTree (α : Type) where
  | leaf : α → RTree α
  | node : RTree α → RTree α → RTree α

/-- The values at the leaves of a reduction tree, left to right. -/
def RTree.toList {α : Type} : RTree α → List α
  | .leaf a => [a]
  | .node l r => l.toList ++ r.toList

/-- Evaluate a reduction tree with a combining function. -/
def RTree.reduce {α : Type} (f : α → α → α) : RTree α → α
  | .leaf a => a
  | .node l r => f (l.reduce f) (r.reduce f)

/- ---------------------------------------------------------------------
C1 and C2 supporting lemmas.
--------------------------------------------------------------------- -/

theorem keyTotal_append (l₁ l₂ : List (Char × Nat)) (c : Char) :
    keyTotal (l₁ ++ l₂) c = keyTotal l₁ c + keyTotal l₂ c := by
  simp [keyTotal, List.filter_append]

theorem keyTotal_cons (k : Char) (v : Nat) (l : List (Char × Nat)) (c : Char) :
    keyTotal ((k, v) :: l) c = (if k = c then v else 0) + keyTotal l c := by
  by_cases h : k = c <;> simp [keyTotal, h]

theorem keyTotal_map_one (cs : List Char) (c : Char) :
    keyTotal (cs.map (fun x => (x, 1))) c = cs.count c := by
  induction cs with
  | nil => simp [keyTotal]
  | cons x rest ih =>
    rw [List.map_cons, keyTotal_cons, ih, List.count_cons]
    by_cases hx : x = c
    · simp [hx]
      omega
    · simp [hx, Ne.symm hx]

theorem keyTotal_dictIncr (d : List (Char × Nat)) (x c : Char) :
    keyTotal (dictIncr d x) c = keyTotal d c + (if x = c then 1 else 0) := by
  induction d with
  | nil =>
    by_cases hx : x = c <;> simp [dictIncr, keyTotal, hx]
  | cons p rest ih =>
    obtain ⟨k, v⟩ := p
    by_cases hk : k = x
    · rw [dictIncr, if_pos hk, keyTotal_cons, keyTotal_cons]
      subst hk
      by_cases hc : k = c <;> simp [hc] <;> omega
    · rw [dictIncr, if_neg hk, keyTotal_cons, keyTotal_cons, ih]
      omega

theorem keyTotal_foldl_dictIncr (cs : List Char) (d : List (Char × Nat)) (c : Char) :
    keyTotal (cs.foldl dictIncr d) c = keyTotal d c + cs.count c := by
  induction cs generalizing d with
  | nil => simp
  | cons x rest ih =>
    simp only [List.foldl_cons, List.count_cons, ih, keyTotal_dictIncr]
    by_cases hx : x = c <;> simp [hx] <;> omega

theorem keyTotal_charDict (cs : List Char) (c : Char) :
    keyTotal (charDict cs) c = cs.count c := by
  simpa [charDict, keyTotal] using keyTotal_foldl_dictIncr cs [] c

theorem keyTotal_flatMap_basic (records : List (List Char)) (c : Char) :
    keyTotal (records.flatMap basic_mapper) c =
      ((records.map charStream).join).count c := by
  induction records with
  | nil => simp [keyTotal]
  | cons r rest ih =>
    simp [List.flatMap_cons, keyTotal_append, ih, basic_mapper,
      keyTotal_map_one, List.count_append]

theorem keyTotal_flatMap_per_record (records : List (List Char)) (c : Char) :
    keyTotal (records.flatMap per_record_combiner) c =
      ((records.map charStream).join).count c := by
  induction records with
  | nil => simp [keyTotal]
  | cons r rest ih =>
    simp [List.flatMap_cons, keyTotal_append, ih, per_record_combiner,
      keyTotal_charDict, List.count_append]

theorem keyTotal_flatMap_per_partition (parts : List (List (List Char))) (c : Char) :
    keyTotal (parts.flatMap per_partition_combiner) c =
      ((parts.join.map charStream).join).count c := by
  induction parts with
  | nil => simp [keyTotal]
  | cons p rest ih =>
    simp [List.flatMap_cons, keyTotal_append, ih, per_partition_combiner,
      keyTotal_charDict, List.count_append]

/- ---------------------------------------------------------------------
C1.
--------------------------------------------------------------------- -/

/-- C1: the three character-frequency implementations are equivalent: for
every finite collection of text records and every way the engine
partitions it, `char_freq_basic`, `char_freq_per_record` and
`char_freq_per_partition` produce the same mapping from character to
total count. -/
theorem char_freq_implementations_equivalent
    (parts : List (List (List Char))) (c : Char) :
    char_freq_basic parts c = char_freq_per_record parts c ∧
    char_freq_per_record parts c = char_freq_per_partition parts c := by
  refine ⟨?_, ?_⟩
  · rw [char_freq_basic, char_freq_per_record,
      keyTotal_flatMap_basic, keyTotal_flatMap_per_record]
  · rw [char_freq_per_record, char_freq_per_partition,
      keyTotal_flatMap_per_record, keyTotal_flatMap_per_partition]

/- ---------------------------------------------------------------------
C5.
--------------------------------------------------------------------- -/

/-- C5: `add_pairs` is commutative and associative on `(sum, count)`
pairs, with `(0, 0)` as identity. -/
theorem add_pairs_comm_assoc_id (a b c : Int × Int) :
    add_pairs a b = add_pairs b a ∧
    add_pairs (add_pairs a b) c = add_pairs a (add_pairs b c) ∧
    add_pairs (0, 0) a = a ∧ add_pairs a (0, 0) = a := by
  refine ⟨?_, ?_, ?_, ?_⟩ <;> simp [add_pairs, Prod.ext_iff] <;>
    constructor <;> ring

/- ---------------------------------------------------------------------
C2.
--------------------------------------------------------------------- -/

theorem rtree_reduce_add_pairs {t : RTree (Int × Int)} :
    t.reduce add_pairs =
      ((t.toList.map Prod.fst).sum, (t.toList.map Prod.snd).sum) := by
  induction t with
  | leaf a => simp [RTree.reduce, RTree.toList]
  | node l r ihl ihr => simp [RTree.reduce, RTree.toList, ihl, ihr, add_pairs]

theorem sum_map_one_int {α : Type} (l : List α) :
    (l.map (fun _ => (1 : Int))).sum = l.length := by
  induction l with
  | nil => simp
  | cons x rest ih => simp [ih]; ring

/-- C2: for every list of `PersonRecord`s, every key, and every
grouping/order in which the engine combines that key's
`to_sum_count`-mapped values with `add_pairs` (any reduction tree over
any permutation of them), `compute_average` of the reduced pair is
exactly the arithmetic mean of that name's scores. -/
theorem average_by_key_exact (records : List PersonRecord) (k : String)
    (t : RTree (Int × Int))
    (hperm : List.Perm t.toList
      ((records.filter (fun r => r.name = k)).map (fun r => (to_sum_count r).2))) :
    compute_average (t.reduce add_pairs) =
      (((((records.filter (fun r => r.name = k)).map (fun r => r.score)).sum : Int) : ℚ)) /
        ((records.filter (fun r => r.name = k)).length : ℚ) := by
  have hred := rtree_reduce_add_pairs (t := t)
  have hfst : (t.toList.map Prod.fst).sum =
      ((records.filter (fun r => r.name = k)).map (fun r => r.score)).sum := by
    have := (hperm.map Prod.fst).sum_eq
    simpa [List.map_map, Function.comp, to_sum_count] using this
  have hsnd : (t.toList.map Prod.snd).sum =
      ((records.filter (fun r => r.name = k)).length : Int) := by
    have h2 := (hperm.map Prod.snd).sum_eq
    rw [h2, List.map_map]
    have hconst : (Prod.snd ∘ fun r : PersonRecord => (to_sum_count r).2) =
        fun _ => (1 : Int) := rfl
    rw [hconst, sum_map_one_int]
  rw [hred, compute_average]
  simp only [hfst, hsnd]
  norm_cast

/-- Witness for C2 at a concrete input: two records for key `a` with
scores 3 and 5, combined in swapped order, average to 4. -/
theorem average_by_key_exact_witness :
    compute_average
      (RTree.reduce add_pairs (RTree.node (RTree.leaf (5, 1)) (RTree.leaf (3, 1)))) = 4 := by
  have h := average_by_key_exact
    [⟨"a", "x", 3⟩, ⟨"a", "y", 5⟩] "a"
    (RTree.node (RTree.leaf (5, 1)) (RTree.leaf (3, 1)))
    (by decide)
  rw [h]
  norm_num [List.filter_cons]

/- ---------------------------------------------------------------------
Python numeric parsing, modelled over character lists.
--------------------------------------------------------------------- -/

/-- Python `str.strip()`: remove leading and trailing whitespace. -/
def pyStrip (cs : List Char) : List Char :=
  ((cs.dropWhile Char.isWhitespace).reverse.dropWhile Char.isWhitespace).reverse

/-- Value of a string of decimal digits. -/
def digitsToNat (cs : List Char) : Nat :=
  cs.foldl (fun acc c => acc * 10 + (c.toNat - Char.toNat '0')) 0

/-- Python `int(s)`: strip whitespace, optional sign, then decimal digits.
`none` models the `ValueError` raised on a malformed token. -/
def pyIntChars (cs : List Char) : Option Int :=
  match pyStrip cs with
  | '+' :: rest =>
    if rest ≠ [] ∧ rest.all Char.isDigit then some (digitsToNat rest) else none
  | '-' :: rest =>
    if rest ≠ [] ∧ rest.all Char.isDigit then some (-(digitsToNat rest : Int)) else none
  | rest =>
    if rest ≠ [] ∧ rest.all Char.isDigit then some (digitsToNat rest) else none

/-- Helper for `pySplitSep`: the current piece is accumulated in reverse. -/
def splitSepAux (sep : Char) : List Char → List Char → List (List Char)
  | [], acc => [acc.reverse]
  | c :: rest, acc =>
    if c = sep then acc.reverse :: splitSepAux sep rest []
    else splitSepAux sep rest (c :: acc)

/-- Python `s.split(sep)`: split at every separator, keeping empty pieces. -/
def pySplitSep (cs : List Char) (sep : Char) : List (List Char) :=
  splitSepAux sep cs []

/-- Discriminate `Except` results. -/
def exceptOk {ε α : Type} : Except ε α → Bool
  | .ok _ => true
  | .error _ => false

/- ---------------------------------------------------------------------
Chapter 3, `mappartitions_transformation.py` and chapter 10,
`top_n_minmax.py`: ad hoc numeric parsing.
--------------------------------------------------------------------- -/

/-- One iteration of the `count_negative_zero_positive` loop:
`num = int(num_str.strip())` updates one of the three counters, and
`except ValueError: continue` leaves them unchanged. -/
def cnzpStep (counts : Int × Int × Int) (num_str : String) : Int × Int × Int :=
  match pyIntChars (pyStrip num_str.toList) with
  | some num =>
    if num < 0 then (counts.1 + 1, counts.2.1, counts.2.2)
    else if num > 0 then (counts.1, counts.2.1, counts.2.2 + 1)
    else (counts.1, counts.2.1 + 1, counts.2.2)
  | none => counts

/-- `count_negative_zero_positive`: count negative, zero and positive
numbers in a partition; malformed lines are skipped. -/
def count_negative_zero_positive (partition : List String) : Int × Int × Int :=
  partition.foldl cnzpStep (0, 0, 0)

/-- `[int(n) for n in tokens]`: parse tokens left to right; the first
malformed token raises `ValueError`. -/
def parseTokens : List (List Char) → Except PyErr (List Int)
  | [] => .ok []
  | t :: ts =>
    match pyIntChars t with
    | none => .error .valueError
    | some n =>
      match parseTokens ts with
      | .error e => .error e
      | .ok ns => .ok (n :: ns)

/-- `[int(n) for n in record.split(",")]`. -/
def parseNumbers (record : String) : Except PyErr (List Int) :=
  parseTokens (pySplitSep record.toList ',')

/-- The loop of `minmax_per_partition`, carrying
`(local_min, local_max, local_count, first_time)`.  `min()`/`max()` of an
empty list raise `ValueError` in Python (unreachable here, since
`split` always yields at least one token). -/
def minmaxLoop : List String → Int → Int → Int → Bool →
    Except PyErr (List (Int × Int × Int))
  | [], local_min, local_max, local_count, first_time =>
    if first_time then .ok [] else .ok [(local_min, local_max, local_count)]
  | record :: rest, local_min, local_max, local_count, first_time =>
    match parseNumbers record with
    | .error e => .error e
    | .ok [] => .error .valueError
    | .ok (n :: ns) =>
      let rec_min := ns.foldl min n
      let rec_max := ns.foldl max n
      if first_time then
        minmaxLoop rest rec_min rec_max (local_count + (n :: ns).length) false
      else
        minmaxLoop rest (min local_min rec_min) (max local_max rec_max)
          (local_count + (n :: ns).length) false

/-- `minmax_per_partition`: `(min, max, count)` of a partition's parsed
numbers, or `[]` for an empty partition. -/
def minmax_per_partition (partition : List String) :
    Except PyErr (List (Int × Int × Int)) :=
  minmaxLoop partition 0 0 0 true

/-- `parse_url_frequency`: parse `"url,frequency"` into
`(url, frequency)`.  `tokens[1]` raises `IndexError` when there is no
comma; `int(tokens[1])` raises `ValueError` on a malformed count. -/
def parse_url_frequency (line : String) : Except PyErr (String × Int) :=
  match pySplitSep line.toList ',' with
  | t0 :: t1 :: _ =>
    match pyIntChars t1 with
    | some n => .ok (String.mk t0, n)
    | none => .error .valueError
  | _ => .error .indexError

theorem minmaxLoop_ok_all_parse (rest : List String) (mn mx cnt : Int)
    (ft : Bool) (l : List (Int × Int × Int))
    (h : minmaxLoop rest mn mx cnt ft = .ok l) :
    ∀ r ∈ rest, exceptOk (parseNumbers r) = true := by
  induction rest generalizing mn mx cnt ft l with
  | nil => intro r hr; cases hr
  | cons record tail ih =>
    intro r hr
    rw [minmaxLoop] at h
    cases hpn : parseNumbers record with
    | error e => rw [hpn] at h; cases h
    | ok ns =>
      rw [hpn] at h
      cases ns with
      | nil => cases h
      | cons n ns =>
        rcases List.mem_cons.mp hr with hre | hrt
        · subst hre; rw [hpn]; rfl
        · simp only at h
          by_cases hft : ft = true
        
          · rw [if_pos hft] at h
            exact ih _ _ _ _ _ h r hrt
          · rw [if_neg hft] at h
            exact ih _ _ _ _ _ h r hrt

theorem cnzp_foldl_filter (lines : List String) (z : Int × Int × Int) :
    lines.foldl cnzpStep z =
      (lines.filter (fun l => (pyIntChars (pyStrip l.toList)).isSome)).foldl
        cnzpStep z := by
  induction lines generalizing z with
  | nil => rfl
  | cons l rest ih =>
    cases hp : pyIntChars (pyStrip l.toList) with
    | none =>
      have hstep : cnzpStep z l = z := by rw [cnzpStep, hp]
      simp only [List.foldl_cons, List.filter_cons, hp, Option.isSome_none,
        hstep]
      exact ih z
    | some n =>
      simp only [List.foldl_cons, List.filter_cons, hp, Option.isSome_some]
      exact ih (cnzpStep z l)

/- ---------------------------------------------------------------------
C3.
--------------------------------------------------------------------- -/

/-- C3 counterexample: parse failures are not always skipped.
`parse_url_frequency` and `minmax_per_partition` propagate the
`ValueError` raised on a malformed numeric token. -/
theorem malformed_token_not_always_skipped :
    parse_url_frequency "url,x" = Except.error PyErr.valueError ∧
    minmax_per_partition ["5,x"] = Except.error PyErr.valueError := by
  exact ⟨rfl, rfl⟩

/-- C3 amended: only `count_negative_zero_positive` skips malformed
numeric tokens (it equals its own run on the well-formed subsequence);
`minmax_per_partition` and `parse_url_frequency` propagate the parse
failure as a `ValueError` to the caller. -/
theorem malformed_token_handling :
    (∀ lines : List String,
      count_negative_zero_positive lines =
        count_negative_zero_positive
          (lines.filter (fun l => (pyIntChars (pyStrip l.toList)).isSome))) ∧
    (∀ part : List String,
      (∃ r ∈ part, parseNumbers r = Except.error PyErr.valueError) →
      ∃ e, minmax_per_partition part = Except.error e) ∧
    (∀ (line : String) (t0 t1 : List Char) (ts : List (List Char)),
      pySplitSep line.toList ',' = t0 :: t1 :: ts →
      pyIntChars t1 = none →
      parse_url_frequency line = Except.error PyErr.valueError) := by
  refine ⟨?_, ?_, ?_⟩
  · intro lines
    exact cnzp_foldl_filter lines (0, 0, 0)
  · intro part ⟨r, hr, hbad⟩
    cases hmm : minmax_per_partition part with
    | error e => exact ⟨e, rfl⟩
    | ok l =>
      have hall := minmaxLoop_ok_all_parse part 0 0 0 true l hmm r hr
      rw [hbad] at hall
      cases hall
  · intro line t0 t1 ts hsplit hnone
    rw [parse_url_frequency, hsplit]
    simp [hnone]

/-- Witness for C3 at concrete inputs: a partition with a malformed line
counts only the well-formed ones, a malformed record makes
`minmax_per_partition` raise, and a malformed frequency makes
`parse_url_frequency` raise. -/
theorem malformed_token_handling_witness :
    count_negative_zero_positive ["7", "abc", "-2", ""] =
      count_negative_zero_positive ["7", "-2"] ∧
    (∃ e, minmax_per_partition ["1,2", "x"] = Except.error e) ∧
    parse_url_frequency "u,12x" = Except.error PyErr.valueError := by
  refine ⟨?_, ?_, ?_⟩
  · have h := malformed_token_handling.1 ["7", "abc", "-2", ""]
    rw [h]
    rfl
  · exact malformed_token_handling.2.1 ["1,2", "x"] ⟨"x", by simp, rfl⟩
  · exact malformed_token_handling.2.2 "u,12x" "u".toList "12x".toList []
      rfl rfl

/- ---------------------------------------------------------------------
Chapter 10, `top_n_minmax.py`: the MinMax pattern.
--------------------------------------------------------------------- -/

/-- The numbers a record parses to (equals the parse result on
well-formed records; `[]` is a placeholder under a parse failure). -/
def okNumbers (record : String) : List Int :=
  match parseNumbers record with
  | .ok ns => ns
  | .error _ => []

/-- All numbers of one partition, in record order. -/
def partNums (partition : List String) : List Int :=
  partition.flatMap okNumbers

/-- All numbers of the whole RDD, in partition and record order. -/
def allNumbers (parts : List (List String)) : List Int :=
  parts.join.flatMap okNumbers

/-- Reference summary of a list of numbers: `[]` when empty, otherwise
the single `(min, max, count)` triple. -/
def groupSummary (ns : List Int) : List (Int × Int × Int) :=
  match ns with
  | [] => []
  | n :: t => [(t.foldl min n, t.foldl max n, (n :: t).length)]

/-- The merging step of `find_minmax`'s driver loop. -/
def minmaxCombine (g r : Int × Int × Int) : Int × Int × Int :=
  (min g.1 r.1, max g.2.1 r.2.1, g.2.2 + r.2.2)

/-- `partition_results[0]` followed by the loop over
`partition_results[1:]`; indexing an empty list raises `IndexError`. -/
def mergeSummaries : List (Int × Int × Int) → Except PyErr (Int × Int × Int)
  | [] => .error .indexError
  | first :: rest => .ok (rest.foldl minmaxCombine first)

/-- `rdd.mapPartitions(minmax_per_partition).collect()`: concatenated
partition summaries; an exception in any partition fails the job. -/
def collectSummaries : List (List String) → Except PyErr (List (Int × Int × Int))
  | [] => .ok []
  | p :: ps =>
    match minmax_per_partition p with
    | .error e => .error e
    | .ok l =>
      match collectSummaries ps with
      | .error e => .error e
      | .ok ls => .ok (l ++ ls)

/-- `find_minmax`: global `(min, max, count)` using mapPartitions. -/
def find_minmax (parts : List (List String)) : Except PyErr (Int × Int × Int) :=
  match collectSummaries parts with
  | .error e => .error e
  | .ok rs => mergeSummaries rs

theorem parseTokens_ok_length (ts : List (List Char)) (ns : List Int)
    (h : parseTokens ts = .ok ns) : ns.length = ts.length := by
  induction ts generalizing ns with
  | nil =>
    rw [parseTokens] at h
    cases h
    rfl
  | cons t ts ih =>
    rw [parseTokens] at h
    cases hp : pyIntChars t with
    | none => rw [hp] at h; cases h
    | some n =>
      rw [hp] at h
      cases hr : parseTokens ts with
      | error e => rw [hr] at h; cases h
      | ok ms =>
        rw [hr] at h
        cases h
        simp [ih ms hr]

theorem splitSepAux_ne_nil (sep : Char) (cs acc : List Char) :
    splitSepAux sep cs acc ≠ [] := by
  induction cs generalizing acc with
  | nil => simp [splitSepAux]
  | cons c rest ih =>
    rw [splitSepAux]
    by_cases h : c = sep
    · rw [if_pos h]
      simp
    · rw [if_neg h]
      exact ih _

theorem parseNumbers_ok_ne_nil (record : String) (ns : List Int)
    (h : parseNumbers record = .ok ns) : ns ≠ [] := by
  intro hnil
  subst hnil
  have hlen := parseTokens_ok_length _ _ h
  exact splitSepAux_ne_nil ',' record.toList []
    (List.length_eq_zero.mp hlen.symm)

theorem foldl_min_min (a n : Int) (t : List Int) :
    t.foldl min (min a n) = min a (t.foldl min n) := by
  induction t generalizing n with
  | nil => rfl
  | cons x t ih =>
    simp only [List.foldl_cons]
    rw [min_assoc, ih]

theorem foldl_max_max (a n : Int) (t : List Int) :
    t.foldl max (max a n) = max a (t.foldl max n) := by
  induction t generalizing n with
  | nil => rfl
  | cons x t ih =>
    simp only [List.foldl_cons]
    rw [max_assoc, ih]

theorem minmaxLoop_false (rest : List String) (mn mx cnt : Int)
    (hwf : ∀ r ∈ rest, exceptOk (parseNumbers r) = true) :
    minmaxLoop rest mn mx cnt false =
      .ok [((partNums rest).foldl min mn, (partNums rest).foldl max mx,
        cnt + (partNums rest).length)] := by
  induction rest generalizing mn mx cnt with
  | nil => simp [minmaxLoop, partNums]
  | cons record tail ih =>
    have hrec := hwf record (by simp)
    cases hp : parseNumbers record with
    | error e =>
      rw [hp] at hrec
      simp [exceptOk] at hrec
    | ok ns =>
      cases ns with
      | nil => exact absurd rfl (parseNumbers_ok_ne_nil record [] hp)
      | cons n ns =>
        rw [minmaxLoop, hp]
        simp only [Bool.false_eq_true, if_false]
        rw [ih (min mn (ns.foldl min n)) (max mx (ns.foldl max n))
          (cnt + (n :: ns).length) (fun r hr => hwf r (by simp [hr]))]
        have hpn : partNums (record :: tail) = n :: (ns ++ partNums tail) := by
          simp [partNums, okNumbers, hp]
        rw [hpn]
        have h1 : List.foldl min mn (n :: (ns ++ partNums tail)) =
            List.foldl min (min mn (List.foldl min n ns)) (partNums tail) := by
          rw [List.foldl_cons, List.foldl_append, foldl_min_min]
        have h2 : List.foldl max mx (n :: (ns ++ partNums tail)) =
            List.foldl max (max mx (List.foldl max n ns)) (partNums tail) := by
          rw [List.foldl_cons, List.foldl_append, foldl_max_max]
        have h3 : cnt + (((n :: (ns ++ partNums tail)).length : Int)) =
            (cnt + (((n :: ns).length : Int))) + ((partNums tail).length : Int) := by
          push_cast [List.length_cons, List.length_append]
          ring
        rw [h1, h2, h3]

theorem minmax_per_partition_spec (p : List String)
    (hwf : ∀ r ∈ p, exceptOk (parseNumbers r) = true) :
    minmax_per_partition p = .ok (groupSummary (partNums p)) := by
  cases p with
  | nil => rfl
  | cons record tail =>
    have hrec := hwf record (by simp)
    cases hp : parseNumbers record with
    | error e =>
      rw [hp] at hrec
      simp [exceptOk] at hrec
    | ok ns =>
      cases ns with
      | nil => exact absurd rfl (parseNumbers_ok_ne_nil record [] hp)
      | cons n ns =>
        rw [minmax_per_partition, minmaxLoop, hp]
        simp only [if_true]
        rw [minmaxLoop_false tail _ _ _ (fun r hr => hwf r (by simp [hr]))]
        have hpn : partNums (record :: tail) = n :: (ns ++ partNums tail) := by
          simp [partNums, okNumbers, hp]
        rw [hpn, groupSummary]
        rw [List.foldl_append, List.foldl_append]
        have h3 : (0 + (((n :: ns).length : Int))) + ((partNums tail).length : Int) =
            ((n :: (ns ++ partNums tail)).length : Int) := by
          push_cast [List.length_cons, List.length_append]
          ring
        rw [h3]

theorem collectSummaries_spec (parts : List (List String))
    (hwf : ∀ r ∈ parts.join, exceptOk (parseNumbers r) = true) :
    collectSummaries parts =
      .ok ((parts.map (fun p => groupSummary (partNums p))).join) := by
  induction parts with
  | nil => rfl
  | cons p ps ih =>
    rw [collectSummaries,
      minmax_per_partition_spec p (fun r hr => hwf r (by simp [hr])),
      ih (fun r hr => hwf r (by simp [hr]))]
    rfl

theorem foldl_minmaxCombine_groups (gs : List (List Int)) (a b c : Int) :
    ((gs.map groupSummary).join).foldl minmaxCombine (a, b, c) =
      ((gs.join).foldl min a, (gs.join).foldl max b,
        c + ((gs.join).length : Int)) := by
  induction gs generalizing a b c with
  | nil => simp
  | cons g gs ih =>
    cases g with
    | nil => simpa [groupSummary] using ih a b c
    | cons n t =>
      simp only [List.map_cons, List.join_cons, groupSummary,
        List.singleton_append, List.foldl_cons]
      rw [ih]
      rw [minmaxCombine]
      have h1 : ((n :: t) ++ gs.join).foldl min a =
          (gs.join).foldl min (min a (t.foldl min n)) := by
        rw [List.foldl_append, List.foldl_cons, foldl_min_min]
      have h2 : ((n :: t) ++ gs.join).foldl max b =
          (gs.join).foldl max (max b (t.foldl max n)) := by
        rw [List.foldl_append, List.foldl_cons, foldl_max_max]
      have h3 : c + ((((n :: t) ++ gs.join).length : Int)) =
          (c + (((n :: t).length : Int))) + ((gs.join).length : Int) := by
        push_cast [List.length_cons, List.length_append]
        ring
      rw [h1, h2, h3]

theorem mergeSummaries_groups (gs : List (List Int)) :
    mergeSummaries ((gs.map groupSummary).join) =
      mergeSummaries (groupSummary (gs.join)) := by
  induction gs with
  | nil => rfl
  | cons g gs ih =>
    cases g with
    | nil => simpa [groupSummary] using ih
    | cons n t =>
      simp only [List.map_cons, List.join_cons, groupSummary,
        List.singleton_append]
      rw [mergeSummaries, foldl_minmaxCombine_groups]
      simp only [List.cons_append, groupSummary, mergeSummaries,
        List.foldl_nil]
      have h1 : (t ++ gs.join).foldl min n =
          (gs.join).foldl min (t.foldl min n) := by
        rw [List.foldl_append]
      have h2 : (t ++ gs.join).foldl max n =
          (gs.join).foldl max (t.foldl max n) := by
        rw [List.foldl_append]
      have h3 : (((n :: (t ++ gs.join)).length : Int)) =
          (((n :: t).length : Int)) + ((gs.join).length : Int) := by
        push_cast [List.length_cons, List.length_append]
        ring
      rw [h1, h2, h3]

theorem foldl_min_le (n : Int) (t : List Int) :
    ∀ x ∈ n :: t, t.foldl min n ≤ x := by
  induction t generalizing n with
  | nil =>
    intro x hx
    simp only [List.mem_singleton] at hx
    subst hx
    simp
  | cons m t ih =>
    intro x hx
    simp only [List.foldl_cons]
    rcases List.mem_cons.mp hx with h | h
    · rw [h]
      exact le_trans (ih (min n m) (min n m) (List.mem_cons_self _ _))
        (min_le_left n m)
    · rcases List.mem_cons.mp h with h2 | h2
      · rw [h2]
        exact le_trans (ih (min n m) (min n m) (List.mem_cons_self _ _))
          (min_le_right n m)
      · exact ih (min n m) x (List.mem_cons_of_mem _ h2)

theorem foldl_le_max (n : Int) (t : List Int) :
    ∀ x ∈ n :: t, x ≤ t.foldl max n := by
  induction t generalizing n with
  | nil =>
    intro x hx
    simp only [List.mem_singleton] at hx
    subst hx
    simp
  | cons m t ih =>
    intro x hx
    simp only [List.foldl_cons]
    rcases List.mem_cons.mp hx with h | h
    · rw [h]
      exact le_trans (le_max_left n m)
        (ih (max n m) (max n m) (List.mem_cons_self _ _))
    · rcases List.mem_cons.mp h with h2 | h2
      · rw [h2]
        exact le_trans (le_max_right n m)
          (ih (max n m) (max n m) (List.mem_cons_self _ _))
      · exact ih (max n m) x (List.mem_cons_of_mem _ h2)

theorem foldl_min_mem (n : Int) (t : List Int) : t.foldl min n ∈ n :: t := by
  induction t generalizing n with
  | nil => simp
  | cons m t ih =>
    simp only [List.foldl_cons]
    rcases List.mem_cons.mp (ih (min n m)) with h | h
    · rw [h]
      rcases min_choice n m with h2 | h2 <;> simp [h2]
    · exact List.mem_cons_of_mem _ (List.mem_cons_of_mem _ h)

theorem foldl_max_mem (n : Int) (t : List Int) : t.foldl max n ∈ n :: t := by
  induction t generalizing n with
  | nil => simp
  | cons m t ih =>
    simp only [List.foldl_cons]
    rcases List.mem_cons.mp (ih (max n m)) with h | h
    · rw [h]
      rcases max_choice n m with h2 | h2 <;> simp [h2]
    · exact List.mem_cons_of_mem _ (List.mem_cons_of_mem _ h)

theorem join_map_partNums (parts : List (List String)) :
    ((parts.map partNums).join) = allNumbers parts := by
  induction parts with
  | nil => rfl
  | cons p ps ih =>
    simp only [List.map_cons, List.join_cons, ih, allNumbers, List.join_cons,
      List.flatMap_append, partNums]

/- ---------------------------------------------------------------------
C10.
--------------------------------------------------------------------- -/

/-- C10: with well-formed records, `find_minmax` on an RDD with at least
one record returns the global minimum, global maximum and total count of
the parsed numbers; on an RDD with no records every partition summary is
empty and `partition_results[0]` raises `IndexError`. -/
theorem find_minmax_defined_only_for_nonempty (parts : List (List String))
    (hwf : ∀ r ∈ parts.join, exceptOk (parseNumbers r) = true) :
    (∀ n t, allNumbers parts = n :: t →
      find_minmax parts =
        .ok (t.foldl min n, t.foldl max n, (((n :: t).length : Int))) ∧
      (∀ x ∈ n :: t, t.foldl min n ≤ x ∧ x ≤ t.foldl max n) ∧
      t.foldl min n ∈ n :: t ∧ t.foldl max n ∈ n :: t) ∧
    (parts.join ≠ [] → allNumbers parts ≠ []) ∧
    (parts.join = [] →
      (∀ p ∈ parts, minmax_per_partition p = .ok []) ∧
      find_minmax parts = .error PyErr.indexError) := by
  have hfm : find_minmax parts =
      mergeSummaries (groupSummary (allNumbers parts)) := by
    rw [find_minmax, collectSummaries_spec parts hwf]
    show mergeSummaries
      ((parts.map (fun p => groupSummary (partNums p))).join) = _
    have hmm : parts.map (fun p => groupSummary (partNums p)) =
        (parts.map partNums).map groupSummary := by
      rw [List.map_map]
      rfl
    rw [hmm, mergeSummaries_groups, join_map_partNums]
  refine ⟨?_, ?_, ?_⟩
  · intro n t hnt
    refine ⟨?_, ?_, foldl_min_mem n t, foldl_max_mem n t⟩
    · rw [hfm, hnt]
      rfl
    · intro x hx
      exact ⟨foldl_min_le n t x hx, foldl_le_max n t x hx⟩
  · intro hne
    cases hj : parts.join with
    | nil => exact absurd hj hne
    | cons r rest =>
      have hr : r ∈ parts.join := by
        rw [hj]
        exact List.mem_cons_self _ _
      have hrec := hwf r hr
      cases hp : parseNumbers r with
      | error e =>
        rw [hp] at hrec
        simp [exceptOk] at hrec
      | ok ns =>
        have hns := parseNumbers_ok_ne_nil r ns hp
        have hon : okNumbers r = ns := by
          rw [okNumbers, hp]
        intro hall
        rw [allNumbers, hj] at hall
        simp only [List.flatMap_cons, hon] at hall
        exact hns (List.append_eq_nil.mp hall).1
  · intro hj
    have hall : allNumbers parts = [] := by
      rw [allNumbers, hj]
      rfl
    refine ⟨?_, ?_⟩
    · intro p hp
      have hpe : p = [] := List.join_eq_nil_iff.mp hj p hp
      rw [hpe]
      rfl
    · rw [hfm, hall]
      rfl

/-- Witness for C10 at concrete inputs: a three-partition RDD (one empty
partition) yields min 1, max 3, count 3; the empty RDD raises
`IndexError` after all partitions return empty summaries. -/
theorem find_minmax_defined_only_for_nonempty_witness :
    find_minmax [["3,1"], [], ["2"]] = .ok (1, 3, 3) ∧
    find_minmax [[], []] = .error PyErr.indexError ∧
    minmax_per_partition [] = .ok [] := by
  refine ⟨?_, ?_, ?_⟩
  · have h := (find_minmax_defined_only_for_nonempty [["3,1"], [], ["2"]]
      (by decide)).1 3 [1, 2] rfl
    exact h.1
  · exact ((find_minmax_defined_only_for_nonempty [[], []]
      (by decide)).2.2 rfl).2
  · exact ((find_minmax_defined_only_for_nonempty [[], []]
      (by decide)).2.2 rfl).1 [] (List.mem_cons_self _ _)

/- ---------------------------------------------------------------------
Chapter 8, `pagerank.py`: adjacency-list construction, and chapter 6,
`graph_basics.py`: flat-table degree computation.
--------------------------------------------------------------------- -/

/-- Helper for `pyDistinct`: drop elements already seen. -/
def distinctAux {α : Type} [DecidableEq α] : List α → List α → List α
  | [], _ => []
  | x :: xs, seen =>
    if x ∈ seen then distinctAux xs seen
    else x :: distinctAux xs (x :: seen)

/-- `rdd.distinct()`: one representative per element, modelled in
first-occurrence order. -/
def pyDistinct {α : Type} [DecidableEq α] (l : List α) : List α :=
  distinctAux l []

/-- `groupByKey().mapValues(list)`: each key of the pair list, paired with
the list of its values. -/
def groupByKey (l : List (String × String)) : List (String × List String) :=
  (pyDistinct (l.map Prod.fst)).map
    (fun k => (k, (l.filter (fun e => e.1 = k)).map Prod.snd))

/-- `build_adjacency_list`:
`edges_rdd.distinct().groupByKey().mapValues(list)` — each source node
paired with the list of its neighbors. -/
def build_adjacency_list (edges : List (String × String)) :
    List (String × List String) :=
  groupByKey (pyDistinct edges)

/-- `compute_in_degrees`: `edges.groupBy("dst").agg(count(*))` — a flat
aggregation from the edge table, one row per distinct destination. -/
def compute_in_degrees (edges : List (String × String)) :
    List (String × Nat) :=
  (pyDistinct (edges.map Prod.snd)).map
    (fun k => (k, (edges.filter (fun e => e.2 = k)).length))

theorem mem_distinctAux {α : Type} [DecidableEq α] (l seen : List α) (a : α) :
    a ∈ distinctAux l seen ↔ a ∈ l ∧ a ∉ seen := by
  induction l generalizing seen with
  | nil => simp [distinctAux]
  | cons x xs ih =>
    rw [distinctAux]
    by_cases hx : x ∈ seen
    · rw [if_pos hx, ih]
      simp only [List.mem_cons]
      constructor
      · rintro ⟨h1, h2⟩
        exact ⟨Or.inr h1, h2⟩
      · rintro ⟨h1 | h1, h2⟩
        · rw [h1] at h2
          exact absurd hx h2
        · exact ⟨h1, h2⟩
    · rw [if_neg hx]
      simp only [List.mem_cons, ih, List.mem_cons]
      constructor
      · rintro (h | ⟨h1, h2⟩)
        · rw [h]
          exact ⟨Or.inl rfl, hx⟩
        · refine ⟨Or.inr h1, fun hs => h2 (Or.inr hs)⟩
      · rintro ⟨h1 | h1, h2⟩
        · exact Or.inl h1
        · by_cases hax : a = x
          · exact Or.inl hax
          · exact Or.inr ⟨h1, fun hs => by
              rcases hs with hs | hs
              · exact hax hs
              · exact h2 hs⟩

theorem mem_pyDistinct {α : Type} [DecidableEq α] (l : List α) (a : α) :
    a ∈ pyDistinct l ↔ a ∈ l := by
  rw [pyDistinct, mem_distinctAux]
  simp

/- ---------------------------------------------------------------------
C4.
--------------------------------------------------------------------- -/

/-- C4 counterexample: `build_adjacency_list` does construct an adjacency
structure — on a concrete edge table it pairs each source node with the
list of its neighbors. -/
theorem build_adjacency_list_constructs_adjacency :
    build_adjacency_list [("a", "b"), ("a", "c"), ("b", "c")] =
      [("a", ["b", "c"]), ("b", ["c"])] := by
  rfl

/-- C4 amended: the DataFrame graph code of chapter 6 works on flat edge
tables (e.g. `compute_in_degrees` is a per-key count over the edge
table), but the RDD PageRank code does build and own an adjacency
structure: for every edge table, `build_adjacency_list` pairs every
source node that has an edge with exactly the list of its neighbors. -/
theorem build_adjacency_list_spec (edges : List (String × String))
    (src : String) (h : ∃ dst, (src, dst) ∈ edges) :
    (∃ nbrs, (src, nbrs) ∈ build_adjacency_list edges ∧
      (∀ d, d ∈ nbrs ↔ (src, d) ∈ edges)) ∧
    (∀ p ∈ compute_in_degrees edges,
      p.2 = (edges.filter (fun e => e.2 = p.1)).length) := by
  obtain ⟨dst, hdst⟩ := h
  constructor
  · refine ⟨((pyDistinct edges).filter (fun e => e.1 = src)).map Prod.snd,
      ?_, ?_⟩
    · rw [build_adjacency_list, groupByKey]
      apply List.mem_map.mpr
      refine ⟨src, ?_, rfl⟩
      rw [mem_pyDistinct]
      apply List.mem_map.mpr
      exact ⟨(src, dst), (mem_pyDistinct _ _).mpr hdst, rfl⟩
    · intro d
      constructor
      · intro hd
        obtain ⟨e, he, hed⟩ := List.mem_map.mp hd
        obtain ⟨e1, e2⟩ := e
        have hf := List.mem_filter.mp he
        have h1 : e1 = src := by simpa using hf.2
        have h2 : (e1, e2) ∈ edges := (mem_pyDistinct _ _).mp hf.1
        simp only at hed
        rw [← h1, ← hed]
        exact h2
      · intro hd
        apply List.mem_map.mpr
        exact ⟨(src, d),
          List.mem_filter.mpr ⟨(mem_pyDistinct _ _).mpr hd, by simp⟩, rfl⟩
  · intro p hp
    obtain ⟨k, hk, hkp⟩ := List.mem_map.mp hp
    rw [← hkp]

/-- Witness for C4 at a concrete input: node `a` of a one-edge graph is
paired with its neighbor list. -/
theorem build_adjacency_list_spec_witness :
    ∃ nbrs, ("a", nbrs) ∈ build_adjacency_list [("a", "b")] ∧
      (∀ d, d ∈ nbrs ↔ ("a", d) ∈ [("a", "b")]) :=
  (build_adjacency_list_spec [("a", "b")] "a" ⟨"b", by simp⟩).1

/- ---------------------------------------------------------------------
`src/common/data_loader.py`.
--------------------------------------------------------------------- -/

/-- `load_csv_as_tuples`: skip the first row of the reader when
`skip_header` is set, then append `record_factory(*row)` for every
non-empty row, in file order. -/
def load_csv_as_tuples {α : Type} (rows : List (List String))
    (record_factory : List String → α) (skip_header : Bool) : List α :=
  (if skip_header then rows.drop 1 else rows).foldl
    (fun records row =>
      if row ≠ [] then records ++ [record_factory row] else records)
    []

theorem load_csv_foldl_spec {α : Type} (rows : List (List String))
    (f : List String → α) (acc : List α) :
    rows.foldl
      (fun records row =>
        if row ≠ [] then records ++ [f row] else records) acc =
      acc ++ (rows.filter (fun r => r ≠ [])).map f := by
  induction rows generalizing acc with
  | nil => simp
  | cons r rest ih =>
    by_cases hr : r = []
    · subst hr
      rw [List.foldl_cons, List.filter_cons]
      have h1 : (if ([] : List String) ≠ [] then acc ++ [f []] else acc) =
          acc := by simp
      have h2 : (decide (([] : List String) ≠ [])) = false := by simp
      rw [h1, h2]
      simp only [Bool.false_eq_true, if_false]
      exact ih acc
    · rw [List.foldl_cons, List.filter_cons]
      have h1 : (if r ≠ [] then acc ++ [f r] else acc) = acc ++ [f r] := by
        simp [hr]
      have h2 : (decide (r ≠ [])) = true := by simp [hr]
      rw [h1, h2]
      simp only [if_true, List.map_cons]
      rw [ih]
      simp

/- ---------------------------------------------------------------------
C6.
--------------------------------------------------------------------- -/

/-- C6: `load_csv_as_tuples` returns `record_factory` applied to every
non-empty row in file order; the first row is skipped exactly when
`skip_header` is true and kept when it is false. -/
theorem load_csv_as_tuples_spec {α : Type} (rows : List (List String))
    (record_factory : List String → α) :
    load_csv_as_tuples rows record_factory true =
      ((rows.drop 1).filter (fun r => r ≠ [])).map record_factory ∧
    load_csv_as_tuples rows record_factory false =
      (rows.filter (fun r => r ≠ [])).map record_factory := by
  constructor
  · rw [load_csv_as_tuples, if_pos rfl, load_csv_foldl_spec]
    simp
  · rw [load_csv_as_tuples]
    simp only [Bool.false_eq_true, if_false]
    rw [load_csv_foldl_spec]
    simp

/- ---------------------------------------------------------------------
`src/common/spark_session.py`.
--------------------------------------------------------------------- -/

/-- Base application name for all Spark sessions. -/
def baseAppName : String := "DataAlgorithms"

/-- Python `str.capitalize()`: first character upper-cased, the rest
lower-cased. -/
def pyCapitalize (s : String) : String :=
  match s.toList with
  | [] => ""
  | c :: rest => String.mk (c.toUpper :: rest.map Char.toLower)

/-- `_snake_to_title`: capitalize each underscore-separated word and
concatenate. -/
def snake_to_title (s : String) : String :=
  String.join ((pySplitSep s.toList '_').map (fun w => pyCapitalize (String.mk w)))

/-- `pathlib.Path(s).stem`: final path component without its last
suffix. -/
def pathStem (s : String) : String :=
  let name := (pySplitSep s.toList '/').getLastD []
  let pieces := pySplitSep name '.'
  if pieces.length ≤ 1 then String.mk name
  else if pieces.head? = some [] ∧ pieces.length = 2 then String.mk name
  else String.mk (List.intercalate ['.'] pieces.dropLast)

/-- `_parse_script_identifier`: a file path (contains `/` or ends with
`.py`) becomes the TitleCase of its stem; a plain name passes through. -/
def parse_script_identifier (script_id : Option String) : Option String :=
  match script_id with
  | none => none
  | some s =>
    if s.toList.contains '/' ∨ ['.', 'p', 'y'].isSuffixOf s.toList then
      some (snake_to_title (pathStem s))
    else some s

/-- `_build_app_name`: `DataAlgorithms` or `DataAlgorithms-<name>`. -/
def build_app_name (script_name : Option String) : String :=
  match script_name with
  | some n => baseAppName ++ "-" ++ n
  | none => baseAppName

/-- The observable configuration of the session built by
`create_spark_session`. -/
structure SparkSessionModel where
  appName : String
  master : String
  configs : List (String × String)
  logLevel : Option String
deriving DecidableEq, Repr

/-- `create_spark_session`: app name and master from the arguments; the
log4j option only when the config file exists; then the three fixed
options; log level set to ERROR after startup. -/
def create_spark_session (script_name : Option String) (master : String)
    (log4j_exists : Bool) : SparkSessionModel :=
  let parsed_name := parse_script_identifier script_name
  let app_name := build_app_name parsed_name
  { appName := app_name
    master := master
    configs :=
      (if log4j_exists then
        [("spark.driver.extraJavaOptions",
          "-Dlog4j.configurationFile=file:conf/log4j2.properties")]
      else []) ++
      [("spark.sql.shuffle.partitions", "4"),
        ("spark.driver.memory", "2g"),
        ("spark.ui.showConsoleProgress", "false")]
    logLevel := some "ERROR" }

/- ---------------------------------------------------------------------
C7.
--------------------------------------------------------------------- -/

/-- C7: every session built by `create_spark_session` carries
`spark.sql.shuffle.partitions = "4"`, `spark.driver.memory = "2g"`,
console progress disabled, and log level ERROR; its configuration list
and log level do not depend on the arguments — only the application name
and the master URL do. -/
theorem create_spark_session_fixed_options (script_name : Option String)
    (master : String) (log4j_exists : Bool) :
    ("spark.sql.shuffle.partitions", "4") ∈
      (create_spark_session script_name master log4j_exists).configs ∧
    ("spark.driver.memory", "2g") ∈
      (create_spark_session script_name master log4j_exists).configs ∧
    ("spark.ui.showConsoleProgress", "false") ∈
      (create_spark_session script_name master log4j_exists).configs ∧
    (create_spark_session script_name master log4j_exists).logLevel =
      some "ERROR" ∧
    (create_spark_session script_name master log4j_exists).master = master ∧
    (create_spark_session script_name master log4j_exists).appName =
      build_app_name (parse_script_identifier script_name) ∧
    (∀ (s2 : Option String) (m2 : String),
      (create_spark_session s2 m2 log4j_exists).configs =
        (create_spark_session script_name master log4j_exists).configs ∧
      (create_spark_session s2 m2 log4j_exists).logLevel =
        (create_spark_session script_name master log4j_exists).logLevel) := by
  refine ⟨?_, ?_, ?_, rfl, rfl, rfl, ?_⟩
  · simp [create_spark_session]
  · simp [create_spark_session]
  · simp [create_spark_session]
  · intro s2 m2
    exact ⟨rfl, rfl⟩

/- ---------------------------------------------------------------------
Chapter 5, `physical_partitioning.py`.
--------------------------------------------------------------------- -/

/-- A transaction row: `customer_id,date,transaction_id,amount` with
`date = DD/MM/YYYY`. -/
structure Transaction where
  customer_id : String
  date : String
  transaction_id : String
  amount : Int
deriving DecidableEq, Repr

/-- A transaction row after `withColumn("year", ...)` and
`withColumn("month", ...)`; the casts can produce null. -/
structure PartitionedTransaction where
  customer_id : String
  date : String
  transaction_id : String
  amount : Int
  year : Option Int
  month : Option Int
deriving DecidableEq, Repr

/-- `add_partition_columns`:
`split(col("date"), "/")` then `date_parts[2].cast("int")` as `year` and
`date_parts[1].cast("int")` as `month`; out-of-range `getItem` and failed
casts yield null; all other columns are untouched. -/
def add_partition_columns (row : Transaction) : PartitionedTransaction :=
  let date_parts := pySplitSep row.date.toList '/'
  { customer_id := row.customer_id
    date := row.date
    transaction_id := row.transaction_id
    amount := row.amount
    year :=
      match date_parts.get? 2 with
      | some p => pyIntChars p
      | none => none
    month :=
      match date_parts.get? 1 with
      | some p => pyIntChars p
      | none => none }

theorem digit_not_whitespace (c : Char) (h : c.isDigit = true) :
    c.isWhitespace = false := by
  have h1 : c ≠ ' ' := fun e => by rw [e] at h; exact absurd h (by decide)
  have h2 : c ≠ '\t' := fun e => by rw [e] at h; exact absurd h (by decide)
  have h3 : c ≠ '\r' := fun e => by rw [e] at h; exact absurd h (by decide)
  have h4 : c ≠ '\n' := fun e => by rw [e] at h; exact absurd h (by decide)
  simp [Char.isWhitespace, h1, h2, h3, h4]

theorem digit_ne_char (c d : Char) (h : c.isDigit = true)
    (hd : d.isDigit = false) : c ≠ d := by
  intro e
  rw [e] at h
  rw [h] at hd
  cases hd

theorem pyStrip_eq_self (cs : List Char)
    (h : ∀ c ∈ cs, c.isWhitespace = false) : pyStrip cs = cs := by
  have h1 : cs.dropWhile Char.isWhitespace = cs := by
    cases cs with
    | nil => rfl
    | cons c rest =>
      rw [List.dropWhile_cons_of_neg]
      simp [h c (by simp)]
  rw [pyStrip, h1]
  have h2 : cs.reverse.dropWhile Char.isWhitespace = cs.reverse := by
    cases hrev : cs.reverse with
    | nil => rfl
    | cons c rest =>
      rw [List.dropWhile_cons_of_neg]
      have hc : c ∈ cs := by
        rw [← List.mem_reverse, hrev]
        simp
      simp [h c hc]
  rw [h2, List.reverse_reverse]

theorem pyIntChars_digits (cs : List Char) (hne : cs ≠ [])
    (hd : ∀ c ∈ cs, c.isDigit = true) :
    pyIntChars cs = some ((digitsToNat cs : Int)) := by
  rw [pyIntChars,
    pyStrip_eq_self cs (fun c hc => digit_not_whitespace c (hd c hc))]
  have hall : cs.all Char.isDigit = true := List.all_eq_true.mpr hd
  cases cs with
  | nil => exact absurd rfl hne
  | cons c rest =>
    have hcd := hd c (by simp)
    have hplus : c ≠ '+' := digit_ne_char c '+' hcd (by decide)
    have hminus : c ≠ '-' := digit_ne_char c '-' hcd (by decide)
    split
    · rename_i rest2 heq
      injection heq with h1 h2
      exact absurd h1 hplus
    · rename_i rest2 heq
      injection heq with h1 h2
      exact absurd h1 hminus
    · rw [if_pos ⟨hne, hall⟩]

/- ---------------------------------------------------------------------
C8.
--------------------------------------------------------------------- -/

/-- C8: on a row whose date has the form `DD/MM/YYYY`,
`add_partition_columns` adds a `year` column holding the integer `YYYY`
and a `month` column holding the integer `MM`, and leaves every
pre-existing column unchanged. -/
theorem add_partition_columns_spec (row : Transaction)
    (d1 d2 m1 m2 y1 y2 y3 y4 : Char)
    (hdate : row.date.toList = [d1, d2, '/', m1, m2, '/', y1, y2, y3, y4])
    (hdig : ∀ c ∈ [d1, d2, m1, m2, y1, y2, y3, y4], c.isDigit = true) :
    (add_partition_columns row).year =
      some ((digitsToNat [y1, y2, y3, y4] : Int)) ∧
    (add_partition_columns row).month =
      some ((digitsToNat [m1, m2] : Int)) ∧
    (add_partition_columns row).customer_id = row.customer_id ∧
    (add_partition_columns row).date = row.date ∧
    (add_partition_columns row).transaction_id = row.transaction_id ∧
    (add_partition_columns row).amount = row.amount := by
  have hslash : ∀ c ∈ [d1, d2, m1, m2, y1, y2, y3, y4], c ≠ '/' :=
    fun c hc => digit_ne_char c '/' (hdig c hc) (by decide)
  have h1 := hslash d1 (by simp)
  have h2 := hslash d2 (by simp)
  have h3 := hslash m1 (by simp)
  have h4 := hslash m2 (by simp)
  have h5 := hslash y1 (by simp)
  have h6 := hslash y2 (by simp)
  have h7 := hslash y3 (by simp)
  have h8 := hslash y4 (by simp)
  have hsplit : pySplitSep row.date.toList '/' =
      [[d1, d2], [m1, m2], [y1, y2, y3, y4]] := by
    rw [hdate]
    simp [pySplitSep, splitSepAux, h1, h2, h3, h4, h5, h6, h7, h8]
  refine ⟨?_, ?_, rfl, rfl, rfl, rfl⟩
  · simp only [add_partition_columns, hsplit, List.get?]
    exact pyIntChars_digits [y1, y2, y3, y4] (by simp)
      (fun c hc => by
        simp only [List.mem_cons, List.not_mem_nil, or_false] at hc
        rcases hc with h | h | h | h <;> rw [h] <;> exact hdig _ (by simp))
  · simp only [add_partition_columns, hsplit, List.get?]
    exact pyIntChars_digits [m1, m2] (by simp)
      (fun c hc => by
        simp only [List.mem_cons, List.not_mem_nil, or_false] at hc
        rcases hc with h | h <;> rw [h] <;> exact hdig _ (by simp))

/-- Witness for C8 at a concrete input: date `15/03/2024` yields
`year = 2024` and `month = 3`, with the date column unchanged. -/
theorem add_partition_columns_spec_witness :
    (add_partition_columns ⟨"c1", "15/03/2024", "t1", 100⟩).year =
      some 2024 ∧
    (add_partition_columns ⟨"c1", "15/03/2024", "t1", 100⟩).month =
      some 3 ∧
    (add_partition_columns ⟨"c1", "15/03/2024", "t1", 100⟩).date =
      "15/03/2024" := by
  have h := add_partition_columns_spec ⟨"c1", "15/03/2024", "t1", 100⟩
    '1' '5' '0' '3' '2' '0' '2' '4' rfl (by decide)
  refine ⟨?_, ?_, h.2.2.2.1⟩
  · rw [h.1]
    decide
  · rw [h.2.1]
    decide

/- ---------------------------------------------------------------------
Chapter 10, `top_n_minmax.py`: the Top-N pattern.  Python compares the
heap entries `(freq, url)` lexicographically; strings compare by code
point.
--------------------------------------------------------------------- -/

/-- Python string `<=`: lexicographic by code point. -/
def strLe : List Char → List Char → Bool
  | [], _ => true
  | _ :: _, [] => false
  | a :: as, b :: bs =>
    if a < b then true
    else if b < a then false
    else strLe as bs

theorem strLe_refl (l : List Char) : strLe l l = true := by
  induction l with
  | nil => rfl
  | cons a as ih =>
    rw [strLe]
    simp [lt_irrefl, ih]

theorem strLe_total (a b : List Char) : strLe a b = true ∨ strLe b a = true := by
  induction a generalizing b with
  | nil => exact Or.inl rfl
  | cons x as ih =>
    cases b with
    | nil => exact Or.inr rfl
    | cons y bs =>
      rcases lt_trichotomy x y with h | h | h
      · left
        rw [strLe, if_pos h]
      · subst h
        rw [strLe, strLe]
        simp only [lt_irrefl, if_false]
        exact ih bs
      · right
        rw [strLe, if_pos h]

theorem strLe_trans (a b c : List Char) (h1 : strLe a b = true)
    (h2 : strLe b c = true) : strLe a c = true := by
  induction a generalizing b c with
  | nil => rfl
  | cons x as ih =>
    cases b with
    | nil => rw [strLe] at h1; cases h1
    | cons y bs =>
      cases c with
      | nil => rw [strLe] at h2; cases h2
      | cons z cs =>
        rw [strLe] at h1 h2 ⊢
        rcases lt_trichotomy x y with hxy | hxy | hxy
        · rcases lt_trichotomy y z with hyz | hyz | hyz
          · rw [if_pos (lt_trans hxy hyz)]
          · subst hyz
            rw [if_pos hxy]
          · rw [if_neg (lt_asymm hyz), if_pos hyz] at h2
            cases h2
        · subst hxy
          rw [if_neg (lt_irrefl x), if_neg (lt_irrefl x)] at h1
          rcases lt_trichotomy x z with hxz | hxz | hxz
          · rw [if_pos hxz]
          · subst hxz
            rw [if_neg (lt_irrefl x), if_neg (lt_irrefl x)] at h2 ⊢
            exact ih bs cs h1 h2
          · rw [if_neg (lt_asymm hxz), if_pos hxz] at h2
            cases h2
        · rw [if_neg (lt_asymm hxy), if_pos hxy] at h1
          cases h1

theorem strLe_antisymm (a b : List Char) (h1 : strLe a b = true)
    (h2 : strLe b a = true) : a = b := by
  induction a generalizing b with
  | nil =>
    cases b with
    | nil => rfl
    | cons y bs => rw [strLe] at h2; cases h2
  | cons x as ih =>
    cases b with
    | nil => rw [strLe] at h1; cases h1
    | cons y bs =>
      rw [strLe] at h1 h2
      rcases lt_trichotomy x y with hxy | hxy | hxy
      · rw [if_neg (lt_asymm hxy), if_pos hxy] at h2
        cases h2
      · subst hxy
        rw [if_neg (lt_irrefl x), if_neg (lt_irrefl x)] at h1 h2
        rw [ih bs h1 h2]
      · rw [if_neg (lt_asymm hxy), if_pos hxy] at h1
        cases h1

/-- Python tuple `<=` on `(freq, url)` pairs: compare frequencies first,
then urls by code point. -/
def urpLe (x y : Int × String) : Bool :=
  if x.1 < y.1 then true
  else if y.1 < x.1 then false
  else strLe x.2.toList y.2.toList

/-- The ordering Python's heapq uses on `(freq, url)` heap entries. -/
def pyTupleLe (x y : Int × String) : Prop := urpLe x y = true

instance : DecidableRel pyTupleLe :=
  fun x y => instDecidableEqBool (urpLe x y) true

theorem pyTupleLe_of_fst_lt {x y : Int × String} (h : x.1 < y.1) :
    pyTupleLe x y := by
  rw [pyTupleLe, urpLe, if_pos h]

theorem not_pyTupleLe_of_fst_lt {x y : Int × String} (h : y.1 < x.1) :
    ¬ pyTupleLe x y := by
  rw [pyTupleLe, urpLe, if_neg (lt_asymm h), if_pos h]
  simp

instance : IsRefl (Int × String) pyTupleLe := by
  constructor
  intro a
  rw [pyTupleLe, urpLe, if_neg (lt_irrefl a.1), if_neg (lt_irrefl a.1)]
  exact strLe_refl _

instance : IsTotal (Int × String) pyTupleLe := by
  constructor
  intro a b
  rcases lt_trichotomy a.1 b.1 with h | h | h
  · exact Or.inl (pyTupleLe_of_fst_lt h)
  · rw [pyTupleLe, pyTupleLe, urpLe, urpLe, h]
    simp only [lt_irrefl, if_false]
    exact strLe_total _ _
  · exact Or.inr (pyTupleLe_of_fst_lt h)

instance : IsTrans (Int × String) pyTupleLe := by
  constructor
  intro a b c h1 h2
  rw [pyTupleLe, urpLe] at h1 h2 ⊢
  rcases lt_trichotomy a.1 b.1 with hab | hab | hab
  · rcases lt_trichotomy b.1 c.1 with hbc | hbc | hbc
    · rw [if_pos (lt_trans hab hbc)]
    · rw [if_pos (hbc ▸ hab)]
    · rw [if_neg (lt_asymm hbc), if_pos hbc] at h2
      cases h2
  · rw [hab]
    rcases lt_trichotomy b.1 c.1 with hbc | hbc | hbc
    · rw [if_pos hbc]
    · rw [hbc, if_neg (lt_irrefl c.1), if_neg (lt_irrefl c.1)]
      rw [hab, if_neg (lt_irrefl b.1), if_neg (lt_irrefl b.1)] at h1
      rw [hbc, if_neg (lt_irrefl c.1), if_neg (lt_irrefl c.1)] at h2
      exact strLe_trans _ _ _ h1 h2
    · rw [if_neg (lt_asymm hbc), if_pos hbc] at h2
      cases h2
  · rw [if_neg (lt_asymm hab), if_pos hab] at h1
    cases h1

instance : IsAntisymm (Int × String) pyTupleLe := by
  constructor
  intro a b h1 h2
  rw [pyTupleLe, urpLe] at h1 h2
  rcases lt_trichotomy a.1 b.1 with hab | hab | hab
  · rw [if_neg (lt_asymm hab), if_pos hab] at h2
    cases h2
  · rw [hab, if_neg (lt_irrefl b.1), if_neg (lt_irrefl b.1)] at h1
    rw [hab] at h2
    rw [if_neg (lt_irrefl b.1), if_neg (lt_irrefl b.1)] at h2
    obtain ⟨a1, a2⟩ := a
    obtain ⟨b1, b2⟩ := b
    simp only at hab
    subst hab
    have hs := strLe_antisymm _ _ h1 h2
    have : a2 = b2 := by
      cases a2
      cases b2
      simp only [String.toList] at hs
      rw [hs]
    rw [this]
  · rw [if_neg (lt_asymm hab), if_pos hab] at h1
    cases h1

/-- The reversed ordering, for descending sorts. -/
def pyTupleGe (x y : Int × String) : Prop := pyTupleLe y x

instance : DecidableRel pyTupleGe :=
  fun x y => instDecidableEqBool (urpLe y x) true

instance : IsTotal (Int × String) pyTupleGe :=
  ⟨fun a b => (total_of pyTupleLe b a).elim Or.inl Or.inr⟩

instance : IsTrans (Int × String) pyTupleGe :=
  ⟨fun _ _ _ h1 h2 => trans_of pyTupleLe h2 h1⟩

instance : IsAntisymm (Int × String) pyTupleGe :=
  ⟨fun _ _ h1 h2 => antisymm_of pyTupleLe h2 h1⟩

/-- Ascending insertion sort under the Python tuple order (the order
`sorted(...)` uses on the heap entries). -/
def sortUrpAsc (l : List (Int × String)) : List (Int × String) :=
  List.insertionSort pyTupleLe l

/-- Descending sort: `sorted(heap, reverse=True)`. -/
def sortUrpDesc (l : List (Int × String)) : List (Int × String) :=
  List.insertionSort pyTupleGe l

/-- `heapq.heappush`: the heap is modelled as an ascending sorted list,
so `heap[0]` is the minimum, as in heapq. -/
def heapPush (heap : List (Int × String)) (x : Int × String) :
    List (Int × String) :=
  List.orderedInsert pyTupleLe x heap

/-- `heapq.heapreplace`: pop the minimum (`heap[0]`), then push. -/
def heapReplace (heap : List (Int × String)) (x : Int × String) :
    List (Int × String) :=
  heapPush heap.tail x

/-- One iteration of the Top-N heap loop on a `(freq, url)` entry:
push while the heap holds fewer than `n` entries, else replace the
minimum when `freq > heap[0][0]`. -/
def topStepP (n : Nat) (heap : List (Int × String)) (x : Int × String) :
    List (Int × String) :=
  if heap.length < n then heapPush heap x
  else if (heap.headD (0, "")).1 < x.1 then heapReplace heap x
  else heap

/-- `top_n_per_partition n`: fold the heap loop over the partition's
`(url, freq)` pairs; the local heap list is emitted. -/
def top_n_per_partition (n : Nat) (partition : List (String × Int)) :
    List (Int × String) :=
  partition.foldl (fun heap p => topStepP n heap (p.2, p.1)) []

/-- `find_top_n`: collect all local top-N heaps, run the same heap loop
over the collected `(freq, url)` candidates, and return the final heap
sorted descending as `(url, freq)` results. -/
def find_top_n (parts : List (List (String × Int))) (n : Nat) :
    List (String × Int) :=
  let all_candidates := parts.flatMap (top_n_per_partition n)
  let final := all_candidates.foldl (topStepP n) []
  (sortUrpDesc final).map (fun x => (x.2, x.1))

/-- The last `n` elements of a list. -/
def lastN (n : Nat) (l : List (Int × String)) : List (Int × String) :=
  l.drop (l.length - n)

theorem drop_orderedInsert_of_forall_not (P t : List (Int × String))
    (x : Int × String) (h : ∀ p ∈ P, ¬ pyTupleLe x p) :
    (List.orderedInsert pyTupleLe x (P ++ t)).drop P.length =
      List.orderedInsert pyTupleLe x t := by
  induction P with
  | nil => simp
  | cons p P ih =>
    rw [List.cons_append, List.orderedInsert, if_neg (h p (by simp)),
      List.length_cons, List.drop_succ_cons]
    exact ih (fun q hq => h q (by simp [hq]))

theorem drop_orderedInsert_of_le (P t : List (Int × String))
    (x b : Int × String) (hle : pyTupleLe x b) :
    (List.orderedInsert pyTupleLe x (P ++ b :: t)).drop (P.length + 1) =
      b :: t := by
  induction P with
  | nil =>
    rw [List.nil_append, List.orderedInsert, if_pos hle]
    simp
  | cons p P ih =>
    rw [List.cons_append, List.orderedInsert]
    by_cases hxp : pyTupleLe x p
    · rw [if_pos hxp, List.length_cons, List.drop_succ_cons,
        List.drop_succ_cons]
      exact List.drop_left P (b :: t)
    · rw [if_neg hxp, List.length_cons, List.drop_succ_cons]
      exact ih

theorem topStep_lastN (n : Nat) (hn : 0 < n) (A : List (Int × String))
    (x : Int × String) (hs : List.Sorted pyTupleLe A)
    (hx : x.1 ∉ A.map Prod.fst) :
    topStepP n (lastN n A) x = lastN n (List.orderedInsert pyTupleLe x A) := by
  by_cases hlen : A.length < n
  · have h0 : A.length - n = 0 := Nat.sub_eq_zero_of_le (le_of_lt hlen)
    have hA : lastN n A = A := by rw [lastN, h0, List.drop_zero]
    have h1 : (List.orderedInsert pyTupleLe x A).length - n = 0 := by
      rw [List.orderedInsert_length pyTupleLe A x]
      omega
    rw [hA, topStepP, if_pos hlen, lastN, h1, List.drop_zero, heapPush]
  · push_neg at hlen
    have hlenlast : (lastN n A).length = n := by
      rw [lastN, List.length_drop]
      omega
    have hAsplit := List.take_append_drop (A.length - n) A
    have hktake : (A.take (A.length - n)).length = A.length - n := by
      rw [List.length_take]
      omega
    cases hh : lastN n A with
    | nil =>
      rw [hh] at hlenlast
      simp at hlenlast
      omega
    | cons h0 htail =>
      rw [lastN] at hh
      rw [hh] at hAsplit
      have hpair : List.Pairwise pyTupleLe
          (A.take (A.length - n) ++ h0 :: htail) := by
        rw [hAsplit]
        exact hs
      have hPle := (List.pairwise_append.mp hpair).2.2
      have hh0A : h0 ∈ A := by
        rw [← hAsplit]
        exact List.mem_append_right _ (List.mem_cons_self _ _)
      have hx0 : x.1 ≠ h0.1 :=
        fun e => hx (e ▸ List.mem_map_of_mem Prod.fst hh0A)
      have hlast : lastN n A = h0 :: htail := by rw [lastN, hh]
      rw [topStepP]
      have hlength : (h0 :: htail).length = n := by
        rw [← hlast]
        exact hlenlast
      rw [if_neg (by omega)]
      have hins : (List.orderedInsert pyTupleLe x A).length - n =
          (A.length - n) + 1 := by
        rw [List.orderedInsert_length pyTupleLe A x]
        omega
      by_cases hcmp : ((h0 :: htail).headD (0, "")).1 < x.1
      · rw [if_pos hcmp]
        simp only [List.headD_cons] at hcmp
        have hnotle : ¬ pyTupleLe x h0 := not_pyTupleLe_of_fst_lt hcmp
        have hnotP : ∀ p ∈ A.take (A.length - n) ++ [h0], ¬ pyTupleLe x p := by
          intro p hp hlep
          rcases List.mem_append.mp hp with hp | hp
          · exact hnotle (trans_of pyTupleLe hlep
              (hPle p hp h0 (List.mem_cons_self _ _)))
          · rw [List.mem_singleton] at hp
            rw [hp] at hlep
            exact hnotle hlep
        have hre : A.take (A.length - n) ++ h0 :: htail =
            (A.take (A.length - n) ++ [h0]) ++ htail :=
          List.append_cons _ _ _
        have hdrop := drop_orderedInsert_of_forall_not
          (A.take (A.length - n) ++ [h0]) htail x hnotP
        rw [← hre, hAsplit] at hdrop
        have hlenP : (A.take (A.length - n) ++ [h0]).length =
            (A.length - n) + 1 := by
          rw [List.length_append, hktake]
          rfl
        rw [hlenP] at hdrop
        rw [lastN, hins, hdrop, heapReplace, List.tail_cons, heapPush]
      · rw [if_neg hcmp]
        simp only [List.headD_cons] at hcmp
        have hlt : x.1 < h0.1 := by
          rcases lt_trichotomy x.1 h0.1 with h | h | h
          · exact h
          · exact absurd h hx0
          · exact absurd h hcmp
        have hle : pyTupleLe x h0 := pyTupleLe_of_fst_lt hlt
        have hdrop := drop_orderedInsert_of_le
          (A.take (A.length - n)) htail x h0 hle
        rw [hAsplit] at hdrop
        rw [hktake] at hdrop
        rw [lastN, hins, hdrop]

theorem topFold_eq (n : Nat) (hn : 0 < n) (l : List (Int × String))
    (hd : (l.map Prod.fst).Nodup) :
    l.foldl (topStepP n) [] = lastN n (sortUrpAsc l) := by
  induction l using List.reverseRecOn with
  | nil => simp [lastN, sortUrpAsc]
  | append_singleton l x ih =>
    have hdl : (l.map Prod.fst).Nodup := by
      rw [List.map_append] at hd
      exact hd.of_append_left
    rw [List.foldl_append, List.foldl_cons, List.foldl_nil, ih hdl]
    have hsorteq : sortUrpAsc (l ++ [x]) =
        List.orderedInsert pyTupleLe x (sortUrpAsc l) := by
      have hperm : List.Perm (sortUrpAsc (l ++ [x]))
          (List.orderedInsert pyTupleLe x (sortUrpAsc l)) :=
        (List.perm_insertionSort _ _).trans
          ((List.perm_append_singleton _ _).trans
            (((List.perm_insertionSort pyTupleLe l).symm.cons x).trans
              (List.perm_orderedInsert _ _ _).symm))
      exact List.eq_of_perm_of_sorted hperm (List.sorted_insertionSort _ _)
        ((List.sorted_insertionSort pyTupleLe l).orderedInsert x _)
    rw [hsorteq]
    apply topStep_lastN n hn _ x (List.sorted_insertionSort _ _)
    intro hmem
    have hperm := (List.perm_insertionSort pyTupleLe l).map Prod.fst
    have hmem2 : x.1 ∈ l.map Prod.fst := hperm.mem_iff.mp hmem
    rw [List.map_append] at hd
    rcases List.nodup_append.mp hd with ⟨_, _, hdisj⟩
    exact hdisj hmem2 (by simp)

theorem sortUrpAsc_perm_congr {A B : List (Int × String)}
    (h : List.Perm A B) : sortUrpAsc A = sortUrpAsc B :=
  List.eq_of_perm_of_sorted
    ((List.perm_insertionSort _ _).trans
      (h.trans (List.perm_insertionSort _ _).symm))
    (List.sorted_insertionSort _ _) (List.sorted_insertionSort _ _)

theorem sortUrpAsc_append_singleton (l : List (Int × String))
    (x : Int × String) :
    sortUrpAsc (l ++ [x]) = List.orderedInsert pyTupleLe x (sortUrpAsc l) := by
  have hperm : List.Perm (sortUrpAsc (l ++ [x]))
      (List.orderedInsert pyTupleLe x (sortUrpAsc l)) :=
    (List.perm_insertionSort _ _).trans
      ((List.perm_append_singleton _ _).trans
        (((List.perm_insertionSort pyTupleLe l).symm.cons x).trans
          (List.perm_orderedInsert _ _ _).symm))
  exact List.eq_of_perm_of_sorted hperm (List.sorted_insertionSort _ _)
    ((List.sorted_insertionSort pyTupleLe l).orderedInsert x _)

theorem fst_not_mem_of_nodup_append (L : List (Int × String))
    (x : Int × String) (hd : ((L ++ [x]).map Prod.fst).Nodup) :
    x.1 ∉ L.map Prod.fst := by
  rw [List.map_append] at hd
  rcases List.nodup_append.mp hd with ⟨_, _, hdisj⟩
  intro hmem
  exact hdisj hmem (by simp)

theorem fst_not_mem_sort (L : List (Int × String)) (x : Int × String)
    (h : x.1 ∉ L.map Prod.fst) : x.1 ∉ (sortUrpAsc L).map Prod.fst :=
  fun hmem =>
    h (((List.perm_insertionSort pyTupleLe L).map Prod.fst).mem_iff.mp hmem)

theorem sortUrpAsc_sorted (l : List (Int × String)) :
    List.Sorted pyTupleLe (sortUrpAsc l) :=
  List.sorted_insertionSort _ _

theorem lastN_sort_sorted (n : Nat) (g : List (Int × String)) :
    List.Sorted pyTupleLe (lastN n (sortUrpAsc g)) :=
  List.Pairwise.sublist (List.drop_sublist _ _)
    (List.sorted_insertionSort _ _)

/-- Extending both sides of a top-n equality by a common suffix keeps
them equal. -/
theorem lastN_sort_append_congr (n : Nat) (hn : 0 < n)
    (A B w : List (Int × String))
    (hAB : lastN n (sortUrpAsc A) = lastN n (sortUrpAsc B))
    (hdA : ((A ++ w).map Prod.fst).Nodup)
    (hdB : ((B ++ w).map Prod.fst).Nodup) :
    lastN n (sortUrpAsc (A ++ w)) = lastN n (sortUrpAsc (B ++ w)) := by
  induction w using List.reverseRecOn with
  | nil => simpa using hAB
  | append_singleton w x ih =>
    have hA2 : A ++ (w ++ [x]) = (A ++ w) ++ [x] :=
      (List.append_assoc A w [x]).symm
    have hB2 : B ++ (w ++ [x]) = (B ++ w) ++ [x] :=
      (List.append_assoc B w [x]).symm
    rw [hA2] at hdA ⊢
    rw [hB2] at hdB ⊢
    rw [sortUrpAsc_append_singleton, sortUrpAsc_append_singleton]
    have hxA : x.1 ∉ (sortUrpAsc (A ++ w)).map Prod.fst :=
      fst_not_mem_sort _ _ (fst_not_mem_of_nodup_append _ _ hdA)
    have hxB : x.1 ∉ (sortUrpAsc (B ++ w)).map Prod.fst :=
      fst_not_mem_sort _ _ (fst_not_mem_of_nodup_append _ _ hdB)
    rw [← topStep_lastN n hn (sortUrpAsc (A ++ w)) x
        (sortUrpAsc_sorted _) hxA,
      ← topStep_lastN n hn (sortUrpAsc (B ++ w)) x
        (sortUrpAsc_sorted _) hxB]
    have hdA2 : ((A ++ w).map Prod.fst).Nodup := by
      rw [List.map_append] at hdA
      exact hdA.of_append_left
    have hdB2 : ((B ++ w).map Prod.fst).Nodup := by
      rw [List.map_append] at hdB
      exact hdB.of_append_left
    rw [ih hdA2 hdB2]

theorem subperm_append_both {α : Type} (l₁ l₂ l₃ l₄ : List α)
    (h1 : List.Subperm l₁ l₂) (h2 : List.Subperm l₃ l₄) :
    List.Subperm (l₁ ++ l₃) (l₂ ++ l₄) := by
  obtain ⟨u, hu1, hu2⟩ := h1
  obtain ⟨v, hv1, hv2⟩ := h2
  exact ⟨u ++ v, hu1.append hv1, hu2.append hv2⟩

theorem subperm_nodup {α : Type} (l₁ l₂ : List α)
    (h : List.Subperm l₁ l₂) (hn : l₂.Nodup) : l₁.Nodup := by
  obtain ⟨u, hu1, hu2⟩ := h
  exact hu1.nodup_iff.mp (List.Pairwise.sublist hu2 hn)

theorem subperm_map {α β : Type} (f : α → β) (l₁ l₂ : List α)
    (h : List.Subperm l₁ l₂) : List.Subperm (l₁.map f) (l₂.map f) := by
  obtain ⟨u, hu1, hu2⟩ := h
  exact ⟨u.map f, hu1.map f, hu2.map f⟩

theorem lastN_sort_subperm (n : Nat) (g : List (Int × String)) :
    List.Subperm (lastN n (sortUrpAsc g)) g :=
  (List.drop_sublist _ _).subperm.trans
    (List.perm_insertionSort pyTupleLe g).subperm

theorem flatMap_localTops_subperm (n : Nat)
    (gs : List (List (Int × String))) :
    List.Subperm (gs.flatMap (fun g => lastN n (sortUrpAsc g))) gs.join := by
  induction gs with
  | nil => exact List.Subperm.refl _
  | cons g gs ih =>
    simp only [List.flatMap_cons, List.join_cons]
    exact subperm_append_both _ _ _ _ (lastN_sort_subperm n g) ih

theorem lastN_sort_idem (n : Nat) (g : List (Int × String)) :
    lastN n (sortUrpAsc (lastN n (sortUrpAsc g))) = lastN n (sortUrpAsc g) := by
  have hsort : sortUrpAsc (lastN n (sortUrpAsc g)) = lastN n (sortUrpAsc g) :=
    List.Sorted.insertionSort_eq (lastN_sort_sorted n g)
  rw [hsort]
  have hlen : (lastN n (sortUrpAsc g)).length ≤ n := by
    rw [lastN, List.length_drop]
    omega
  rw [lastN, Nat.sub_eq_zero_of_le hlen, List.drop_zero]

/-- Taking the top n of the concatenated local top-n lists gives the top
n of the whole collection. -/
theorem topn_flatMap (n : Nat) (hn : 0 < n)
    (gs : List (List (Int × String)))
    (hd : ((gs.join).map Prod.fst).Nodup) :
    lastN n (sortUrpAsc (gs.flatMap (fun g => lastN n (sortUrpAsc g)))) =
      lastN n (sortUrpAsc (gs.join)) := by
  induction gs with
  | nil => rfl
  | cons g gs ih =>
    simp only [List.flatMap_cons, List.join_cons]
    have hd' : ((g ++ gs.join).map Prod.fst).Nodup := by
      simpa using hd
    have hdJ : ((gs.join).map Prod.fst).Nodup := by
      rw [List.map_append] at hd'
      exact hd'.of_append_right
    have hsubT : List.Subperm (lastN n (sortUrpAsc g)) g :=
      lastN_sort_subperm n g
    have hsubF : List.Subperm
        (gs.flatMap (fun g => lastN n (sortUrpAsc g))) gs.join :=
      flatMap_localTops_subperm n gs
    have hdJg : ((gs.join ++ g).map Prod.fst).Nodup :=
      ((List.perm_append_comm.map Prod.fst).nodup_iff).mp hd'
    have hd_TJ : (((lastN n (sortUrpAsc g)) ++ gs.join).map Prod.fst).Nodup :=
      subperm_nodup _ _
        (subperm_map _ _ _
          (subperm_append_both _ _ _ _ hsubT (List.Subperm.refl _))) hd'
    have hd_FT : (((gs.flatMap (fun g => lastN n (sortUrpAsc g))) ++
        lastN n (sortUrpAsc g)).map Prod.fst).Nodup :=
      subperm_nodup _ _
        (subperm_map _ _ _ (subperm_append_both _ _ _ _ hsubF hsubT)) hdJg
    have hd_JT : ((gs.join ++ lastN n (sortUrpAsc g)).map Prod.fst).Nodup :=
      subperm_nodup _ _
        (subperm_map _ _ _
          (subperm_append_both _ _ _ _ (List.Subperm.refl _) hsubT)) hdJg
    calc lastN n (sortUrpAsc (lastN n (sortUrpAsc g) ++
            gs.flatMap (fun g => lastN n (sortUrpAsc g))))
        = lastN n (sortUrpAsc
            (gs.flatMap (fun g => lastN n (sortUrpAsc g)) ++
              lastN n (sortUrpAsc g))) := by
          rw [sortUrpAsc_perm_congr List.perm_append_comm]
      _ = lastN n (sortUrpAsc (gs.join ++ lastN n (sortUrpAsc g))) :=
          lastN_sort_append_congr n hn _ _ _ (ih hdJ) hd_FT hd_JT
      _ = lastN n (sortUrpAsc (lastN n (sortUrpAsc g) ++ gs.join)) := by
          rw [sortUrpAsc_perm_congr List.perm_append_comm]
      _ = lastN n (sortUrpAsc (g ++ gs.join)) :=
          lastN_sort_append_congr n hn _ _ _ (lastN_sort_idem n g) hd_TJ hd'

theorem sorted_desc_reverse (l : List (Int × String))
    (h : List.Sorted pyTupleLe l) : List.Sorted pyTupleGe l.reverse :=
  List.pairwise_reverse.mpr (h.imp (fun hab => hab))

theorem sortUrpDesc_of_sorted_asc (l : List (Int × String))
    (h : List.Sorted pyTupleLe l) : sortUrpDesc l = l.reverse :=
  List.eq_of_perm_of_sorted
    ((List.perm_insertionSort _ _).trans (List.reverse_perm l).symm)
    (List.sorted_insertionSort _ _) (sorted_desc_reverse l h)

theorem sortUrpDesc_eq_reverse_sortAsc (l : List (Int × String)) :
    sortUrpDesc l = (sortUrpAsc l).reverse :=
  List.eq_of_perm_of_sorted
    ((List.perm_insertionSort _ _).trans
      (((List.reverse_perm (sortUrpAsc l)).trans
        (List.perm_insertionSort pyTupleLe l)).symm))
    (List.sorted_insertionSort _ _)
    (sorted_desc_reverse _ (sortUrpAsc_sorted l))

theorem flatMap_congr_mem {α β : Type} (l : List α) (f g : α → List β)
    (h : ∀ a ∈ l, f a = g a) : l.flatMap f = l.flatMap g := by
  induction l with
  | nil => rfl
  | cons a l ih =>
    simp only [List.flatMap_cons]
    rw [h a (by simp), ih (fun b hb => h b (by simp [hb]))]

/- ---------------------------------------------------------------------
C9.
--------------------------------------------------------------------- -/

/-- C9 counterexample: with tied frequencies the heap guard
`freq > heap[0][0]` never admits the lexicographically larger pair, so
`find_top_n` does not return the largest elements under the
(frequency, url) order. -/
theorem find_top_n_ties_counterexample :
    find_top_n [[("a", 5), ("b", 5)]] 1 = [("a", 5)] ∧
    ((sortUrpDesc
      (([[("a", 5), ("b", 5)]] : List (List (String × Int))).join.map
        (fun p => (p.2, p.1)))).take 1).map (fun x => (x.2, x.1)) =
      [("b", 5)] := by
  exact ⟨rfl, rfl⟩

/-- C9 amended: for every RDD of (url, frequency) pairs whose frequencies
are pairwise distinct, every partitioning, and every n > 0, `find_top_n`
returns the first min(n, size) entries of the descending
(frequency, url) ordering of the whole RDD — the global top-N, listed in
descending order. -/
theorem find_top_n_spec (parts : List (List (String × Int))) (n : Nat)
    (hn : 0 < n)
    (hdist : ((parts.join).map (fun p => p.2)).Nodup) :
    find_top_n parts n =
      ((sortUrpDesc ((parts.join).map (fun p => (p.2, p.1)))).take n).map
        (fun x => (x.2, x.1)) ∧
    (find_top_n parts n).length = min n (parts.join).length := by
  have hdJ : (((parts.join).map (fun p => (p.2, p.1))).map Prod.fst).Nodup := by
    rw [List.map_map]
    exact hdist
  have hlocal : ∀ part ∈ parts, top_n_per_partition n part =
      lastN n (sortUrpAsc (part.map (fun p => (p.2, p.1)))) := by
    intro part hmem
    have hdpart : ((part.map (fun p => (p.2, p.1))).map Prod.fst).Nodup := by
      rw [List.map_map]
      exact List.Pairwise.sublist
        (((List.sublist_join_of_mem hmem)).map _) hdist
    have hfold : part.foldl (fun heap p => topStepP n heap (p.2, p.1)) [] =
        (part.map (fun p => (p.2, p.1))).foldl (topStepP n) [] :=
      (List.foldl_map _ _ _ _).symm
    rw [top_n_per_partition, hfold]
    exact topFold_eq n hn _ hdpart
  have hcands : parts.flatMap (top_n_per_partition n) =
      (parts.map (fun part => part.map (fun p => (p.2, p.1)))).flatMap
        (fun g => lastN n (sortUrpAsc g)) := by
    rw [List.flatMap_map]
    exact flatMap_congr_mem parts _ _ hlocal
  have hjoinW : (parts.map (fun part =>
        part.map (fun p => (p.2, p.1)))).join =
      (parts.join).map (fun p => (p.2, p.1)) :=
    (List.map_flatten _ _).symm
  have hdcands :
      ((parts.flatMap (top_n_per_partition n)).map Prod.fst).Nodup := by
    rw [hcands]
    apply subperm_nodup _ _
      (subperm_map _ _ _ (flatMap_localTops_subperm n _))
    rw [hjoinW]
    exact hdJ
  have hW : (((parts.map (fun part =>
        part.map (fun p => (p.2, p.1)))).join).map Prod.fst).Nodup := by
    rw [hjoinW]
    exact hdJ
  have hfinal : (parts.flatMap (top_n_per_partition n)).foldl (topStepP n) [] =
      lastN n (sortUrpAsc ((parts.join).map (fun p => (p.2, p.1)))) := by
    rw [topFold_eq n hn _ hdcands, hcands, topn_flatMap n hn _ hW, hjoinW]
  have hftop : find_top_n parts n =
      (sortUrpDesc (lastN n
        (sortUrpAsc ((parts.join).map (fun p => (p.2, p.1)))))).map
        (fun x => (x.2, x.1)) := by
    show (sortUrpDesc
      ((parts.flatMap (top_n_per_partition n)).foldl (topStepP n) [])).map
        (fun x => (x.2, x.1)) = _
    rw [hfinal]
  have hdesc : sortUrpDesc (lastN n
      (sortUrpAsc ((parts.join).map (fun p => (p.2, p.1))))) =
      (sortUrpDesc ((parts.join).map (fun p => (p.2, p.1)))).take n := by
    rw [sortUrpDesc_of_sorted_asc _ (lastN_sort_sorted n _),
      sortUrpDesc_eq_reverse_sortAsc, lastN, List.take_reverse]
  constructor
  · rw [hftop, hdesc]
  · rw [hftop, List.length_map, hdesc, List.length_take]
    rw [show (sortUrpDesc ((parts.join).map (fun p => (p.2, p.1)))).length =
        ((parts.join).map (fun p => (p.2, p.1))).length from
      (List.perm_insertionSort _ _).length_eq]
    rw [List.length_map]

/-- Witness for C9 at a concrete input: two singleton partitions with
distinct frequencies, n = 1: the global top-1 is returned. -/
theorem find_top_n_spec_witness :
    find_top_n [[("a", 5)], [("b", 3)]] 1 = [("a", 5)] ∧
    (find_top_n [[("a", 5)], [("b", 3)]] 1).length = min 1 2 := by
  have h := find_top_n_spec [[("a", 5)], [("b", 3)]] 1 (by decide) (by decide)
  constructor
  · rw [h.1]
    rfl
  · exact h.2
